import Mathlib

/-!
Shallow embedding of the C++ core of the `opa` package
(src/cpp_functions.cpp): ordinal pattern analysis scoring.

Modelling conventions:
* an IEEE double is modelled as `Option ℚ`: `some q` is a finite value,
  `none` models NaN (R's missing value `NA_real_` is a NaN payload);
* every comparison (`>`, `<`, `>=`) involving `none` is `false`, as IEEE
  comparisons with NaN are;
* the division `correct_pairs / n_pairs` performed by the C++ code yields
  NaN exactly when `n_pairs == 0` (then `correct_pairs == 0` too), so the
  `pcc` double is modelled as `Option ℚ` with `none` for that NaN;
* `arma::vec`/`arma::rowvec` become `List Val`, `arma::mat` becomes
  `List (List Val)` (list of rows); constructed vectors are
  zero-initialised (Armadillo's default constructor fill);
* `pairing_type` stays a `String`: the C++ tests `== "pairwise"` and
  treats every other string as the adjacent case.
-/

/-- A C++ double: `none` models NaN (including R's `NA_real_`). -/
abbrev Val : Type := Option ℚ

/-- IEEE subtraction: NaN propagates. -/
def osub : Val → Val → Val
  | some a, some b => some (a - b)
  | _, _ => none

/-- IEEE `x > t` against a finite threshold: false when `x` is NaN. -/
def ogtQ : Val → ℚ → Bool
  | some a, t => decide (t < a)
  | none, _ => false

/-- IEEE `x < t` against a finite threshold: false when `x` is NaN. -/
def oltQ : Val → ℚ → Bool
  | some a, t => decide (a < t)
  | none, _ => false

/-- IEEE `a >= b` on two doubles: false when either is NaN. -/
def oge : Val → Val → Bool
  | some a, some b => decide (b ≤ a)
  | _, _ => false

/-- One iteration of the loop body of `sign_with_threshold`
(src/cpp_functions.cpp:45-51): the slot starts at 0 (`arma::zeros`), is set
to 1 if `xs[i] > diff_threshold`, to -1 if `xs[i] < -diff_threshold`.
A NaN input fails both IEEE comparisons, so the slot keeps its 0. -/
def signElem (x : Val) (diff_threshold : ℚ) : ℚ :=
  if ogtQ x diff_threshold then 1
  else if oltQ x (-diff_threshold) then -1
  else 0

/-- `sign_with_threshold` (src/cpp_functions.cpp:42-53). -/
def sign_with_threshold (xs : List Val) (diff_threshold : ℚ) : List ℚ :=
  xs.map (fun x => signElem x diff_threshold)

/-- `triangular` (src/cpp_functions.cpp:60-63): `n * (n + 1) / 2`. -/
def triangular (n : Nat) : Nat := n * (n + 1) / 2

/-- `all_diffs` (src/cpp_functions.cpp:73-86): the double loop
`for i in [0,n)`, `for j in [i+1,n)`, emitting `xs(j) - xs(i)`. -/
def all_diffs (xs : List Val) : List Val :=
  (List.range xs.length).flatMap (fun i =>
    (List.range' (i + 1) (xs.length - (i + 1))).map (fun j =>
      osub (xs.getD j none) (xs.getD i none)))

/-- `arma::diff` as used in `ordering` (src/cpp_functions.cpp:103):
consecutive differences `xs(i+1) - xs(i)`, length `n - 1`. -/
def adiff (xs : List Val) : List Val :=
  (List.range (xs.length - 1)).map (fun i =>
    osub (xs.getD (i + 1) none) (xs.getD i none))

/-- `ordering` (src/cpp_functions.cpp:99-105): `"pairwise"` takes the
all-pairs differences, any other string the consecutive differences. -/
def ordering (xs : List Val) (pairing_type : String) (diff_threshold : ℚ) :
    List ℚ :=
  if pairing_type = "pairwise" then
    sign_with_threshold (all_diffs xs) diff_threshold
  else
    sign_with_threshold (adiff xs) diff_threshold

/-- Index list produced by `arma::find_finite` on a vector: the indices
(counting from `k`) of the non-NaN entries, in increasing order. -/
def finiteIndices : List Val → Nat → List Nat
  | [], _ => []
  | none :: rest, k => finiteIndices rest (k + 1)
  | some _ :: rest, k => k :: finiteIndices rest (k + 1)

/-- `conform` (src/cpp_functions.cpp:26-28): `h.elem(find_finite(xs))`. -/
def conform (xs h : List Val) : List Val :=
  (finiteIndices xs 0).map (fun i => h.getD i none)

/-- `xs.elem(arma::find_finite(xs))` as used in `row_pcc`
(src/cpp_functions.cpp:118): the row with its NaN entries removed. -/
def dropMissing (xs : List Val) : List Val :=
  (finiteIndices xs 0).map (fun i => xs.getD i none)

/-- `xs.has_nan()` (src/cpp_functions.cpp:116). -/
def has_nan (xs : List Val) : Bool := xs.any (fun x => x.isNone)

/-- `xs.has_nan() ? conform(xs, h) : h` (src/cpp_functions.cpp:116). -/
def hypothesis_no_nas (xs h : List Val) : List Val :=
  if has_nan xs then conform xs h else h

/-- The list returned by `row_pcc` (src/cpp_functions.cpp:126-128):
`n_pairs` is a `size_t`, `correct_pairs` the (integer-valued) double sum
of the 0/1 match vector, `pcc` the double `(correct_pairs/n_pairs)*100`
(`none` models the NaN produced when `n_pairs == 0`). -/
structure RowPccResult where
  n_pairs : Nat
  correct_pairs : Nat
  pcc : Option ℚ
deriving Repr, DecidableEq

/-- `row_pcc` (src/cpp_functions.cpp:115-129). -/
def row_pcc (xs h : List Val) (pairing_type : String) (diff_threshold : ℚ) :
    RowPccResult :=
  let hypothesis_ordering := ordering (hypothesis_no_nas xs h) pairing_type 0
  let row_ordering := ordering (dropMissing xs) pairing_type diff_threshold
  let mtch := (List.range row_ordering.length).map (fun i =>
    decide (row_ordering.getD i 0 = hypothesis_ordering.getD i 0))
  let n_pairs := mtch.length
  let correct_pairs := mtch.count true
  { n_pairs := n_pairs
    correct_pairs := correct_pairs
    pcc := if n_pairs = 0 then none
           else some (((correct_pairs : ℚ) / (n_pairs : ℚ)) * 100) }

/-- `scalar_row_pcc` (src/cpp_functions.cpp:139-151): same body as
`row_pcc`, returning only the `pcc` double. -/
def scalar_row_pcc (xs h : List Val) (pairing_type : String)
    (diff_threshold : ℚ) : Option ℚ :=
  let hypothesis_ordering := ordering (hypothesis_no_nas xs h) pairing_type 0
  let row_ordering := ordering (dropMissing xs) pairing_type diff_threshold
  let mtch := (List.range row_ordering.length).map (fun i =>
    decide (row_ordering.getD i 0 = hypothesis_ordering.getD i 0))
  let n_pairs := mtch.length
  let correct_pairs := mtch.count true
  if n_pairs = 0 then none
  else some (((correct_pairs : ℚ) / (n_pairs : ℚ)) * 100)

/-- The list returned by `pcc` (src/cpp_functions.cpp:179-186). -/
structure GroupResult where
  group_pcc : Option ℚ
  individual_pccs : List (Option ℚ)
  total_pairs : Nat
  correct_pairs : Nat
  data : List (List Val)
  hypothesis : List Val
  pairing_type : String
  diff_threshold : ℚ
deriving Repr, DecidableEq

/-- One iteration of the row loop of `pcc` (src/cpp_functions.cpp:167-175):
append the row's `pcc` to `individual_pccs`, add its `n_pairs` and
`correct_pairs` to the running totals. -/
def pccStep (h : List Val) (pairing_type : String) (diff_threshold : ℚ)
    (acc : List (Option ℚ) × Nat × Nat) (row : List Val) :
    List (Option ℚ) × Nat × Nat :=
  let r := row_pcc row h pairing_type diff_threshold
  (acc.1 ++ [r.pcc], acc.2.1 + r.n_pairs, acc.2.2 + r.correct_pairs)

/-- `pcc` (src/cpp_functions.cpp:162-187), the group aggregator. -/
def pcc (dat : List (List Val)) (h : List Val) (pairing_type : String)
    (diff_threshold : ℚ) : GroupResult :=
  let fin := dat.foldl (pccStep h pairing_type diff_threshold) ([], 0, 0)
  { group_pcc := if fin.2.1 = 0 then none
                 else some (((fin.2.2 : ℚ) / (fin.2.1 : ℚ)) * 100)
    individual_pccs := fin.1
    total_pairs := fin.2.1
    correct_pairs := fin.2.2
    data := dat
    hypothesis := h
    pairing_type := pairing_type
    diff_threshold := diff_threshold }

/-- The list returned by `calc_cvalues` (src/cpp_functions.cpp:252-254). -/
structure CvalResult where
  group_cval : ℚ
  individual_cvals : List ℚ
  rand_pccs : List (Option ℚ)
deriving Repr, DecidableEq

/-- `arma::shuffle` of a vector, with the randomness made explicit: `p` is
the drawn assignment, element `r` of the result being element `p[r]` of the
input (`p` ranges over permutations of the index range). -/
def shuffleWith (p : List Nat) (v : List Val) : List Val :=
  p.map (fun k => v.getD k none)

/-- `dat.n_cols` for a matrix stored as a list of rows. -/
def numCols (dat : List (List Val)) : Nat := (dat.getD 0 []).length

/-- `dat.col(c)` for a matrix stored as a list of rows. -/
def colOf (dat : List (List Val)) (c : Nat) : List Val :=
  dat.map (fun row => row.getD c none)

/-- `shuffle_each_column` (src/cpp_functions.cpp:194-199) with the
randomness explicit: `ps c` is the assignment drawn for column `c`. -/
def shuffle_each_column (ps : Nat → List Nat) (dat : List (List Val)) :
    List (List Val) :=
  (List.range dat.length).map (fun r =>
    (List.range (numCols dat)).map (fun c =>
      (shuffleWith (ps c) (colOf dat c)).getD r none))

/-- The shuffled row scored at repetition `i`, row `j`
(src/cpp_functions.cpp:229-238): with `shuffle_across_individuals` the row
is drawn from the column-shuffled matrix and shuffled again, otherwise the
original row is shuffled.  `crand i c` is the assignment for column `c` at
repetition `i`; `rrand i j` the assignment for row `j` at repetition `i`. -/
def randRow (g : GroupResult) (shuffle_across_individuals : Bool)
    (crand rrand : Nat → Nat → List Nat) (i j : Nat) : List Val :=
  if shuffle_across_individuals then
    shuffleWith (rrand i j) ((shuffle_each_column (crand i) g.data).getD j [])
  else
    shuffleWith (rrand i j) (g.data.getD j [])

/-- `rand_indiv_pcc` at repetition `i`, row `j`
(src/cpp_functions.cpp:235-237). -/
def randPcc (g : GroupResult) (shuffle_across_individuals : Bool)
    (crand rrand : Nat → Nat → List Nat) (i j : Nat) : Option ℚ :=
  scalar_row_pcc (randRow g shuffle_across_individuals crand rrand i j)
    g.hypothesis g.pairing_type g.diff_threshold

/-- `arma::mean` of a vector of doubles: NaN when the vector is empty
(0/0) or contains a NaN (NaN propagates through the sum). -/
def omean (l : List (Option ℚ)) : Option ℚ :=
  if l.isEmpty || l.any (fun x => x.isNone) then none
  else some ((l.filterMap id).sum / (l.length : ℚ))

/-- One repetition of the Monte-Carlo loop of `calc_cvalues`
(src/cpp_functions.cpp:224-245), acting on the state
(per-row exceedance counters, recorded group randomized PCCs): row `j`'s
counter gains 1 when its randomized PCC `>=` its observed PCC (an IEEE
comparison, false on NaN), and the mean of this repetition's per-row
randomized PCCs is appended to `rand_group_pccs`. -/
def cvalStep (g : GroupResult) (shuffle_across_individuals : Bool)
    (crand rrand : Nat → Nat → List Nat) (num_rows : Nat)
    (st : List ℚ × List (Option ℚ)) (i : Nat) : List ℚ × List (Option ℚ) :=
  let rand_indiv_pccs := (List.range num_rows).map (fun j =>
    randPcc g shuffle_across_individuals crand rrand i j)
  let counters := (List.range num_rows).map (fun j =>
    st.1.getD j 0 +
      if oge (rand_indiv_pccs.getD j none) (g.individual_pccs.getD j none)
      then 1 else 0)
  (counters, st.2 ++ [omean rand_indiv_pccs])

/-- `calc_cvalues` (src/cpp_functions.cpp:209-255) with the randomness of
the shuffles passed in explicitly (`crand` the per-repetition column
assignments, `rrand` the per-repetition row assignments).  The exceedance
counters start at 0 (Armadillo zero-initialises constructed vectors), and
`group_cval = accu(rand_group_pccs >= obs_group_pcc) / nreps` counts the
repetitions whose group randomized PCC meets or exceeds the observed one
(IEEE `>=`, false on NaN). -/
def calc_cvalues (pcc_out : GroupResult) (nreps : Nat)
    (shuffle_across_individuals : Bool)
    (crand rrand : Nat → Nat → List Nat) : CvalResult :=
  let num_rows := pcc_out.data.length
  let fin := (List.range nreps).foldl
    (cvalStep pcc_out shuffle_across_individuals crand rrand num_rows)
    (List.replicate num_rows 0, [])
  { group_cval :=
      (((fin.2.filter (fun x => oge x pcc_out.group_pcc)).length : ℚ) /
        (nreps : ℚ))
    individual_cvals := fin.1.map (fun c => c / (nreps : ℚ))
    rand_pccs := fin.2 }

/-- Modelled from the spec: the exhaustive-permutation mode of the
Randomization Engine (spec §4.6, §6 `permutation_cvalues`) has no
implementation under src/ (only the Monte-Carlo mode `calc_cvalues` is
present there).  Per the spec, for a row of length N all N! permutations
are generated (duplicate values yield duplicate permutations, which is
retained) and each is scored with the Row Scorer against the fixed
hypothesis. -/
def permutation_scores (row h : List Val) (pairing_type : String)
    (diff_threshold : ℚ) : List (Option ℚ) :=
  row.permutations.map (fun p => scalar_row_pcc p h pairing_type diff_threshold)

/-- Modelled from the spec: `permutation_cvalues(GroupResult) -> CvalResult`
(spec §6) is absent from src/.  Per spec §4.6-§4.7 each row's c-value is
the exceedance proportion of its exhaustive permutation scores against its
observed PCC (inclusive `>=`); the spec does not fix the group-level
aggregation of the exhaustive mode, so it is modelled as the mean of the
individual c-values, and `rand_pccs` as empty (no Monte-Carlo series
exists in this mode). -/
def permutation_cvalues (g : GroupResult) : CvalResult :=
  let individual_cvals := (List.range g.data.length).map (fun r =>
    let scores := permutation_scores (g.data.getD r []) g.hypothesis
      g.pairing_type g.diff_threshold
    (((scores.filter (fun s => oge s (g.individual_pccs.getD r none))).length :
        ℚ) / (scores.length : ℚ)))
  { group_cval := individual_cvals.sum / (individual_cvals.length : ℚ)
    individual_cvals := individual_cvals
    rand_pccs := [] }

/-- The pair-index enumeration realised by the loops of `all_diffs`
(src/cpp_functions.cpp:79-83): all `(i, j)` with `i < j < n`, in the fixed
order `(0,1), (0,2), ..., (0,n-1), (1,2), ...`. -/
def pairsList (n : Nat) : List (Nat × Nat) :=
  (List.range n).flatMap (fun i =>
    (List.range' (i + 1) (n - (i + 1))).map (fun j => (i, j)))

/-- Statement of claim C1: within `row_pcc` the hypothesis ordering uses
tolerance 0 and the observed ordering of the missing-stripped row uses
tolerance `t`; `n_pairs` is the ordering length, `correct_pairs` the
number of agreeing positions, and `pcc = 100 * correct_pairs / n_pairs`
when `n_pairs > 0`. -/
def rowPccSpec (xs h : List Val) (pairing_type : String) (t : ℚ) : Prop :=
  let r := row_pcc xs h pairing_type t
  let hyp_ord := ordering (hypothesis_no_nas xs h) pairing_type 0
  let row_ord := ordering (dropMissing xs) pairing_type t
  r.n_pairs = row_ord.length ∧
  r.correct_pairs = ((List.range row_ord.length).filter (fun i =>
    decide (row_ord.getD i 0 = hyp_ord.getD i 0))).length ∧
  (0 < r.n_pairs →
    r.pcc = some (100 * (r.correct_pairs : ℚ) / (r.n_pairs : ℚ)))

/-- Statement of the amended claim C5: one code per element in order; an
element greater than `t` yields 1, one less than `-t` yields -1, anything
else — including an undefined (NaN) element, which fails both IEEE
comparisons — yields 0; no distinct MISSING code exists in the output, and
at `t = 0` the encoder coincides with the classical sign function on
defined inputs. -/
def signSpec (xs : List Val) (t : ℚ) : Prop :=
  (sign_with_threshold xs t).length = xs.length ∧
  (∀ i, i < xs.length →
    (sign_with_threshold xs t).getD i 0 =
      match xs.getD i none with
      | some x => if t < x then 1 else if x < -t then -1 else 0
      | none => 0) ∧
  (∀ c ∈ sign_with_threshold xs t, c = 1 ∨ c = -1 ∨ c = 0) ∧
  (∀ i x, xs.getD i none = some x →
    (sign_with_threshold xs 0).getD i 0 =
      if 0 < x then 1 else if x < 0 then -1 else 0)

/-- Statement of claim C6: under `"pairwise"` the ordering is the encoded
sign of `xs[j] - xs[i]` over the fixed pair enumeration `pairsList` (with
length `n(n-1)/2`), and under `"adjacent"` the encoded sign of
`xs[i+1] - xs[i]` (with length `n - 1`). -/
def orderingSpec (xs : List Val) (t : ℚ) : Prop :=
  ordering xs "pairwise" t = (pairsList xs.length).map (fun p =>
    signElem (osub (xs.getD p.2 none) (xs.getD p.1 none)) t) ∧
  (ordering xs "pairwise" t).length = xs.length * (xs.length - 1) / 2 ∧
  pairsList 4 = [(0, 1), (0, 2), (0, 3), (1, 2), (1, 3), (2, 3)] ∧
  ordering xs "adjacent" t = (List.range (xs.length - 1)).map (fun i =>
    signElem (osub (xs.getD (i + 1) none) (xs.getD i none)) t) ∧
  (ordering xs "adjacent" t).length = xs.length - 1

/-- Statement of claim C8: `conform` keeps the hypothesis entries at
exactly the defined positions of the row, in order; `row_pcc`'s hypothesis
pre-processing is the identity when the row has no missing value; and the
spec's concrete example holds. -/
def conformSpec (xs h : List Val) : Prop :=
  conform xs h = ((List.range xs.length).filter (fun i =>
    (xs.getD i none).isSome)).map (fun i => h.getD i none) ∧
  (has_nan xs = false → hypothesis_no_nas xs h = h) ∧
  conform [some 1, none, some 3] [some 10, some 20, some 30] =
    [some 10, some 30]

/-- Statement of claim C4: the group aggregator sums the per-row
`n_pairs` and `correct_pairs`, keeps every row's PCC in row order, has
`group_pcc = 100 * correct_pairs / total_pairs` when pairs exist, and the
spec's 2x3 concrete scenario yields row PCCs 100 and 0 and group 50. -/
def groupPccSpec (dat : List (List Val)) (h : List Val)
    (pairing_type : String) (t : ℚ) : Prop :=
  let g := pcc dat h pairing_type t
  g.total_pairs = (dat.map (fun row =>
    (row_pcc row h pairing_type t).n_pairs)).sum ∧
  g.correct_pairs = (dat.map (fun row =>
    (row_pcc row h pairing_type t).correct_pairs)).sum ∧
  g.individual_pccs = dat.map (fun row =>
    (row_pcc row h pairing_type t).pcc) ∧
  (0 < g.total_pairs →
    g.group_pcc = some (100 * (g.correct_pairs : ℚ) / (g.total_pairs : ℚ))) ∧
  (pcc [[some 1, some 2, some 3], [some 3, some 2, some 1]]
      [some 1, some 2, some 3] "pairwise" 0).individual_pccs =
    [some 100, some 0] ∧
  (pcc [[some 1, some 2, some 3], [some 3, some 2, some 1]]
      [some 1, some 2, some 3] "pairwise" 0).group_pcc = some 50

/-- Statement of claim C9: the exhaustive mode scores all `N!`
permutations of a row (duplicates retained) with the row scorer, hence
exactly 6 on a 3-element row, the identity permutation among them; and
`permutation_cvalues` produces one individual c-value per row. -/
def permSpec (row h : List Val) (pairing_type : String) (t : ℚ) : Prop :=
  (permutation_scores row h pairing_type t).length =
    Nat.factorial row.length ∧
  scalar_row_pcc row h pairing_type t ∈
    permutation_scores row h pairing_type t ∧
  (row.length = 3 → (permutation_scores row h pairing_type t).length = 6) ∧
  ∀ g : GroupResult,
    (permutation_cvalues g).individual_cvals.length = g.data.length

/-- Statement of claim C2: in `calc_cvalues`, with the flag off each
original row is shuffled independently before rescoring, with it on the
row is drawn from the column-shuffled matrix and shuffled again; each
repetition's group randomized PCC is the mean of its per-row randomized
PCCs; a row's counter counts the repetitions with randomized PCC `>=` its
observed PCC (inclusive), `individual_cvals` divides those counts by
`nreps`, `group_cval` is the proportion of repetitions whose group
randomized PCC `>=` the observed group PCC, and all c-values lie in
`[0, 1]`. -/
def cvalSpec (g : GroupResult) (nreps : Nat) (flag : Bool)
    (crand rrand : Nat → Nat → List Nat) : Prop :=
  let R := calc_cvalues g nreps flag crand rrand
  let n := g.data.length
  let rp := fun i j => randPcc g flag crand rrand i j
  let repGroup := fun i => omean ((List.range n).map (fun j => rp i j))
  (flag = false → ∀ i j, rp i j =
    scalar_row_pcc (shuffleWith (rrand i j) (g.data.getD j []))
      g.hypothesis g.pairing_type g.diff_threshold) ∧
  (flag = true → ∀ i j, rp i j =
    scalar_row_pcc
      (shuffleWith (rrand i j) ((shuffle_each_column (crand i) g.data).getD j []))
      g.hypothesis g.pairing_type g.diff_threshold) ∧
  R.rand_pccs = (List.range nreps).map repGroup ∧
  R.individual_cvals = (List.range n).map (fun j =>
    (((List.range nreps).filter (fun i =>
      oge (rp i j) (g.individual_pccs.getD j none))).length : ℚ) /
      (nreps : ℚ)) ∧
  R.group_cval = (((List.range nreps).filter (fun i =>
    oge (repGroup i) g.group_pcc)).length : ℚ) / (nreps : ℚ) ∧
  (∀ c ∈ R.individual_cvals, 0 ≤ c ∧ c ≤ 1) ∧
  0 ≤ R.group_cval ∧ R.group_cval ≤ 1

/-! ### Helper lemmas -/

theorem getD_map_range {α : Type} (f : Nat → α) (d : α) {n j : Nat}
    (h : j < n) : ((List.range n).map f).getD j d = f j := by
  simp [List.getD_eq_getElem?_getD, List.getElem?_map, List.getElem?_range h]

theorem length_sign_with_threshold (xs : List Val) (t : ℚ) :
    (sign_with_threshold xs t).length = xs.length := by
  simp [sign_with_threshold]

theorem all_diffs_eq_map_pairsList (xs : List Val) :
    all_diffs xs = (pairsList xs.length).map (fun p =>
      osub (xs.getD p.2 none) (xs.getD p.1 none)) := by
  simp [all_diffs, pairsList, List.map_flatMap, List.map_map]
  rfl

theorem sum_range_sub_mul_two (n : Nat) :
    (((List.range n).map (fun i => n - (i + 1))).sum) * 2 = n * (n - 1) := by
  induction n with
  | zero => simp
  | succ m ih =>
    rw [List.range_succ_eq_map]
    simp only [List.map_cons, List.map_map, List.sum_cons]
    have hf : ((fun i => m + 1 - (i + 1)) ∘ Nat.succ) = fun i => m - (i + 1) := by
      funext i
      simp only [Function.comp]
      omega
    rw [hf]
    have hm : m + 1 - (0 + 1) = m := by omega
    rw [hm, Nat.add_mul, ih]
    cases m with
    | zero => rfl
    | succ k =>
      simp only [Nat.succ_sub_one]
      ring

theorem length_all_diffs (xs : List Val) :
    (all_diffs xs).length = xs.length * (xs.length - 1) / 2 := by
  have h1 : (all_diffs xs).length =
      ((List.range xs.length).map (fun i => xs.length - (i + 1))).sum := by
    rw [all_diffs, List.length_flatMap]
    apply congrArg List.sum
    apply List.map_congr_left
    intro i _
    simp [Function.comp]
  have h2 := sum_range_sub_mul_two xs.length
  omega

theorem length_adiff (xs : List Val) : (adiff xs).length = xs.length - 1 := by
  simp [adiff]

theorem length_ordering (xs : List Val) (pt : String) (t : ℚ) :
    (ordering xs pt t).length =
      if pt = "pairwise" then xs.length * (xs.length - 1) / 2
      else xs.length - 1 := by
  by_cases hp : pt = "pairwise" <;>
    simp [ordering, hp, length_sign_with_threshold, length_all_diffs,
      length_adiff]

theorem finiteIndices_eq (xs : List Val) (k : Nat) :
    finiteIndices xs k = ((List.range xs.length).filter (fun i =>
      (xs.getD i none).isSome)).map (fun i => k + i) := by
  induction xs generalizing k with
  | nil => simp [finiteIndices]
  | cons x rest ih =>
    cases x with
    | none =>
      rw [show finiteIndices (none :: rest) k = finiteIndices rest (k + 1)
        from rfl, ih]
      rw [show (none :: rest : List Val).length = rest.length + 1 from rfl,
        List.range_succ_eq_map, List.filter_cons]
      simp only [List.getD_cons_zero, Option.isSome_none, Bool.false_eq_true,
        if_false, List.filter_map, List.map_map]
      apply List.map_congr_left
      intro a _
      simp [Function.comp]
      omega
    | some v =>
      rw [show finiteIndices (some v :: rest) k =
        k :: finiteIndices rest (k + 1) from rfl, ih]
      rw [show (some v :: rest : List Val).length = rest.length + 1 from rfl,
        List.range_succ_eq_map, List.filter_cons]
      simp only [List.getD_cons_zero, Option.isSome_some, if_true,
        List.filter_map, List.map_map, List.map_cons, Nat.add_zero]
      congr 1
      rw [show ((fun i => Option.isSome ((some v :: rest).getD i none)) ∘
          Nat.succ) = (fun i => Option.isSome (rest.getD i none)) from by
        funext a
        simp [Function.comp]]
      apply List.map_congr_left
      intro a _
      simp [Function.comp]
      omega

theorem finiteIndices_zero (xs : List Val) :
    finiteIndices xs 0 = (List.range xs.length).filter (fun i =>
      (xs.getD i none).isSome) := by
  rw [finiteIndices_eq]
  simp

theorem finiteIndices_of_not_hasNan (xs : List Val)
    (h : has_nan xs = false) : finiteIndices xs 0 = List.range xs.length := by
  rw [finiteIndices_zero]
  apply List.filter_eq_self.mpr
  intro i hi
  rw [List.mem_range] at hi
  have hgd : xs.getD i none = xs[i] := by
    simp [List.getD_eq_getElem?_getD, List.getElem?_eq_getElem hi]
  have hmem : xs[i] ∈ xs := List.getElem_mem hi
  have hne : ¬ xs[i] = none := by
    have h2 : ∀ x ∈ xs, ¬ x = none := by simpa [has_nan] using h
    exact h2 _ hmem
  rw [hgd]
  cases hx : xs[i] with
  | none => exact absurd hx hne
  | some v => simp

theorem length_dropMissing (xs : List Val) :
    (dropMissing xs).length = (finiteIndices xs 0).length := by
  simp [dropMissing]

theorem length_conform (xs h : List Val) :
    (conform xs h).length = (finiteIndices xs 0).length := by
  simp [conform]

theorem getD_sign_with_threshold (xs : List Val) (t : ℚ) {i : Nat}
    (hi : i < xs.length) :
    (sign_with_threshold xs t).getD i 0 = signElem (xs.getD i none) t := by
  rw [sign_with_threshold, List.getD_eq_getElem?_getD, List.getElem?_map,
    List.getElem?_eq_getElem hi]
  simp [List.getD_eq_getElem?_getD, List.getElem?_eq_getElem hi]

theorem count_true_map_decide (p : Nat → Prop) [DecidablePred p]
    (l : List Nat) :
    (l.map (fun i => decide (p i))).count true =
      (l.filter (fun i => decide (p i))).length := by
  rw [List.count_eq_countP, List.countP_map, List.countP_eq_length_filter]
  congr 1
  apply List.filter_congr
  intro a _
  simp [Function.comp]

/-! ### Claims -/

/-- Claim C5 counterexample: `sign_with_threshold` does not return a
MISSING code for an undefined (NaN) element — a NaN fails both IEEE
threshold comparisons and keeps the zero-initialised slot, so the encoder
returns the ordinary code 0 for NaN, the same output as for a genuine
zero input. -/
theorem C5_counterexample :
    sign_with_threshold [none] 0 = [0] ∧
    sign_with_threshold [some 0] 0 = [0] := by
  constructor <;> rfl

/-- Claim C5 (amended): for every input vector and threshold `t ≥ 0`,
`sign_with_threshold` returns one code per element in order: +1 when the
element exceeds `t`, -1 when it is below `-t`, and 0 otherwise — where an
undefined (NaN) element falls in the "otherwise" case (it fails both IEEE
comparisons) and yields 0 rather than a distinct MISSING code; the output
only ever contains 1, -1, 0, and at `t = 0` the encoder coincides with the
classical sign function on defined inputs. -/
theorem C5_sign_with_threshold (xs : List Val) (t : ℚ) (ht : 0 ≤ t) :
    signSpec xs t := by
  refine ⟨length_sign_with_threshold xs t, ?_, ?_, ?_⟩
  · intro i hi
    rw [getD_sign_with_threshold xs t hi]
    cases hx : xs.getD i none with
    | none => simp [signElem, ogtQ, oltQ]
    | some x => simp [signElem, ogtQ, oltQ]
  · intro c hc
    rw [sign_with_threshold] at hc
    obtain ⟨x, _, rfl⟩ := List.mem_map.mp hc
    rw [signElem]
    by_cases h1 : ogtQ x t
    · simp [h1]
    · by_cases h2 : oltQ x (-t)
      · simp [h1, h2]
      · simp [h1, h2]
  · intro i x hx
    have hi : i < xs.length := by
      by_contra hge
      push_neg at hge
      rw [List.getD_eq_getElem?_getD, List.getElem?_eq_none hge] at hx
      simp at hx
    rw [getD_sign_with_threshold xs 0 hi, hx]
    simp [signElem, ogtQ, oltQ]

/-- Claim C5 witness: the amended statement at a concrete input. -/
theorem C5_witness :
    (0 : ℚ) ≤ 0 ∧ signSpec [some 5, some (-3), some 0, none] 0 :=
  ⟨le_refl 0, C5_sign_with_threshold [some 5, some (-3), some 0, none] 0
    (le_refl 0)⟩

/-- Claim C6: for vectors of length at least 2, the `"pairwise"` ordering
is the encoded sign of `xs[j] - xs[i]` over the fixed enumeration of pairs
`i < j` (so it has `n(n-1)/2` elements), and the `"adjacent"` ordering is
the encoded sign of consecutive differences (so it has `n - 1`
elements). -/
theorem C6_ordering (xs : List Val) (t : ℚ) (hn : 2 ≤ xs.length) :
    orderingSpec xs t := by
  refine ⟨?_, ?_, by decide, ?_, ?_⟩
  · rw [ordering, if_pos rfl, sign_with_threshold, all_diffs_eq_map_pairsList,
      List.map_map]
    rfl
  · rw [length_ordering, if_pos rfl]
  · rw [ordering, if_neg (by decide), sign_with_threshold, adiff,
      List.map_map]
    rfl
  · rw [length_ordering, if_neg (by decide)]

/-- Claim C6 witness: the ordering contract at a concrete vector. -/
theorem C6_witness :
    2 ≤ ([some 1, some 2, some 3, some 4] : List Val).length ∧
      orderingSpec [some 1, some 2, some 3, some 4] 0 :=
  ⟨by decide, C6_ordering [some 1, some 2, some 3, some 4] 0 (by decide)⟩

/-- Claim C7: for a row and hypothesis of equal length, the hypothesis
ordering and the observed-row ordering computed inside `row_pcc` have the
same length, so every index of the match loop is in bounds for both. -/
theorem C7_orderings_aligned (xs h : List Val) (pt : String) (t : ℚ)
    (hlen : xs.length = h.length) :
    (ordering (hypothesis_no_nas xs h) pt 0).length =
      (ordering (dropMissing xs) pt t).length ∧
    (∀ i, i < (ordering (dropMissing xs) pt t).length →
      i < (ordering (hypothesis_no_nas xs h) pt 0).length) := by
  have hl : (hypothesis_no_nas xs h).length = (dropMissing xs).length := by
    rw [hypothesis_no_nas]
    by_cases hnan : has_nan xs
    · rw [if_pos hnan, length_conform, length_dropMissing]
    · rw [if_neg hnan]
      have hfalse : has_nan xs = false := by
        simpa using hnan
      rw [length_dropMissing, finiteIndices_of_not_hasNan xs hfalse,
        List.length_range, ← hlen]
  have hord : (ordering (hypothesis_no_nas xs h) pt 0).length =
      (ordering (dropMissing xs) pt t).length := by
    rw [length_ordering, length_ordering, hl]
  exact ⟨hord, fun i hi => by omega⟩

/-- Claim C7 witness: the alignment at a concrete row with a missing
value. -/
theorem C7_witness :
    ([some 1, none, some 3] : List Val).length =
      ([some 4, some 5, some 6] : List Val).length ∧
    ((ordering (hypothesis_no_nas [some 1, none, some 3] [some 4, some 5, some 6])
        "pairwise" 0).length =
      (ordering (dropMissing [some 1, none, some 3]) "pairwise" 17).length ∧
    (∀ i, i < (ordering (dropMissing [some 1, none, some 3]) "pairwise" 17).length →
      i < (ordering (hypothesis_no_nas [some 1, none, some 3]
        [some 4, some 5, some 6]) "pairwise" 0).length)) :=
  ⟨rfl, C7_orderings_aligned [some 1, none, some 3] [some 4, some 5, some 6]
    "pairwise" 17 rfl⟩

/-- Claim C8: `conform` returns the hypothesis entries at exactly the
defined positions of the row in order, `row_pcc`'s hypothesis
pre-processing is the identity on rows without missing values, and the
spec's concrete example conforms to `[10, 30]`. -/
theorem C8_conform (xs h : List Val) (hlen : xs.length = h.length) :
    conformSpec xs h := by
  refine ⟨?_, ?_, by rfl⟩
  · rw [conform, finiteIndices_zero]
  · intro hnan
    rw [hypothesis_no_nas, hnan]
    simp

/-- Claim C8 witness: the conformer contract at the spec's concrete
example. -/
theorem C8_witness :
    ([some 1, none, some 3] : List Val).length =
      ([some 10, some 20, some 30] : List Val).length ∧
    conformSpec [some 1, none, some 3] [some 10, some 20, some 30] :=
  ⟨rfl, C8_conform [some 1, none, some 3] [some 10, some 20, some 30] rfl⟩

/-- Claim C10: `scalar_row_pcc` returns exactly the `pcc` field of the
record returned by `row_pcc` on the same inputs — the two scoring
routines are equivalent. -/
theorem C10_scalar_row_pcc_eq_row_pcc (xs h : List Val) (pt : String)
    (t : ℚ) : scalar_row_pcc xs h pt t = (row_pcc xs h pt t).pcc := rfl

/-- Claim C3 (the code as written): a row whose missing-stripped length is
below 2 yields `n_pairs = 0`, and `row_pcc` performs the `0/0` division
anyway; the NaN it produces (modelled `none`) is stored, unmarked, in the
group aggregator's `individual_pccs` instead of an explicit error, while
the row contributes 0 to both totals. -/
theorem C3_zero_pairs_silent_nan :
    row_pcc [some 1, none] [some 1, some 2] "pairwise" 0 =
      ⟨0, 0, none⟩ ∧
    (pcc [[some 1, none]] [some 1, some 2] "pairwise" 0).individual_pccs =
      [none] ∧
    (pcc [[some 1, none]] [some 1, some 2] "pairwise" 0).total_pairs = 0 ∧
    (pcc [[some 1, none]] [some 1, some 2] "pairwise" 0).correct_pairs = 0 := by
  refine ⟨rfl, rfl, rfl, rfl⟩

/-- Claim C1: `row_pcc` scores the missing-stripped row's ordering at
tolerance `t` against the hypothesis ordering at tolerance 0; `n_pairs`
is the ordering length, `correct_pairs` the number of agreeing positions,
and `pcc = 100 * correct_pairs / n_pairs` whenever `n_pairs > 0`. -/
theorem C1_row_pcc (xs h : List Val) (pt : String) (t : ℚ)
    (hlen : xs.length = h.length) (ht : 0 ≤ t) : rowPccSpec xs h pt t := by
  have hn : (row_pcc xs h pt t).n_pairs =
      (ordering (dropMissing xs) pt t).length := by
    simp [row_pcc]
  have hc : (row_pcc xs h pt t).correct_pairs =
      ((List.range (ordering (dropMissing xs) pt t).length).filter (fun i =>
        decide ((ordering (dropMissing xs) pt t).getD i 0 =
          (ordering (hypothesis_no_nas xs h) pt 0).getD i 0))).length := by
    rw [show (row_pcc xs h pt t).correct_pairs =
      ((List.range (ordering (dropMissing xs) pt t).length).map (fun i =>
        decide ((ordering (dropMissing xs) pt t).getD i 0 =
          (ordering (hypothesis_no_nas xs h) pt 0).getD i 0))).count true
      from rfl]
    exact count_true_map_decide _ _
  have hp : 0 < (row_pcc xs h pt t).n_pairs →
      (row_pcc xs h pt t).pcc =
        some (100 * ((row_pcc xs h pt t).correct_pairs : ℚ) /
          ((row_pcc xs h pt t).n_pairs : ℚ)) := by
    intro hpos
    have hne : (row_pcc xs h pt t).n_pairs ≠ 0 := by omega
    rw [show (row_pcc xs h pt t).pcc =
      (if (row_pcc xs h pt t).n_pairs = 0 then none
       else some ((((row_pcc xs h pt t).correct_pairs : ℚ) /
         ((row_pcc xs h pt t).n_pairs : ℚ)) * 100)) from rfl,
      if_neg hne]
    congr 1
    rw [mul_comm, mul_div_assoc]
  exact ⟨hn, hc, hp⟩

/-- Claim C1 witness: the row scorer contract at a concrete input. -/
theorem C1_witness :
    ([some 1, some 2] : List Val).length =
      ([some 1, some 2] : List Val).length ∧ (0 : ℚ) ≤ 0 ∧
    rowPccSpec [some 1, some 2] [some 1, some 2] "adjacent" 0 :=
  ⟨rfl, le_refl 0,
    C1_row_pcc [some 1, some 2] [some 1, some 2] "adjacent" 0 rfl (le_refl 0)⟩

theorem pcc_foldl_eq (h : List Val) (pt : String) (t : ℚ)
    (dat : List (List Val)) (acc : List (Option ℚ) × Nat × Nat) :
    dat.foldl (pccStep h pt t) acc =
      (acc.1 ++ dat.map (fun row => (row_pcc row h pt t).pcc),
       acc.2.1 + (dat.map (fun row => (row_pcc row h pt t).n_pairs)).sum,
       acc.2.2 + (dat.map (fun row =>
         (row_pcc row h pt t).correct_pairs)).sum) := by
  induction dat generalizing acc with
  | nil => simp
  | cons row rest ih =>
    rw [List.foldl_cons, ih]
    simp [pccStep, List.append_assoc]
    omega

/-- Claim C4: the group aggregator sums per-row pair counts, preserves row
order in `individual_pccs`, computes `group_pcc = 100 * correct / total`
when pairs exist, and the spec's concrete 2x3 scenario gives row PCCs 100
and 0 and a group PCC of 50. -/
theorem C4_pcc_group (dat : List (List Val)) (h : List Val) (pt : String)
    (t : ℚ) (hrect : ∀ row ∈ dat, row.length = h.length) :
    groupPccSpec dat h pt t := by
  have hfold := pcc_foldl_eq h pt t dat ([], 0, 0)
  have htot : (pcc dat h pt t).total_pairs =
      (dat.map (fun row => (row_pcc row h pt t).n_pairs)).sum := by
    show (dat.foldl (pccStep h pt t) ([], 0, 0)).2.1 = _
    rw [hfold]
    simp
  have hcor : (pcc dat h pt t).correct_pairs =
      (dat.map (fun row => (row_pcc row h pt t).correct_pairs)).sum := by
    show (dat.foldl (pccStep h pt t) ([], 0, 0)).2.2 = _
    rw [hfold]
    simp
  have hind : (pcc dat h pt t).individual_pccs =
      dat.map (fun row => (row_pcc row h pt t).pcc) := by
    show (dat.foldl (pccStep h pt t) ([], 0, 0)).1 = _
    rw [hfold]
    simp
  have hOrd123 : ordering [some 1, some 2, some 3] "pairwise" 0 =
      [1, 1, 1] := by
    show sign_with_threshold
      [some ((2:ℚ) - 1), some ((3:ℚ) - 1), some ((3:ℚ) - 2)] 0 = [1, 1, 1]
    norm_num [sign_with_threshold, signElem, ogtQ, oltQ]
  have hOrd321 : ordering [some 3, some 2, some 1] "pairwise" 0 =
      [-1, -1, -1] := by
    show sign_with_threshold
      [some ((2:ℚ) - 3), some ((1:ℚ) - 3), some ((1:ℚ) - 2)] 0 = [-1, -1, -1]
    norm_num [sign_with_threshold, signElem, ogtQ, oltQ]
  have hd123 : dropMissing [some (1:ℚ), some 2, some 3] =
      [some 1, some 2, some 3] := rfl
  have hh123 : hypothesis_no_nas [some (1:ℚ), some 2, some 3]
      [some 1, some 2, some 3] = [some 1, some 2, some 3] := rfl
  have hd321 : dropMissing [some (3:ℚ), some 2, some 1] =
      [some 3, some 2, some 1] := rfl
  have hh321 : hypothesis_no_nas [some (3:ℚ), some 2, some 1]
      [some 1, some 2, some 3] = [some 1, some 2, some 3] := rfl
  have hrow1 : row_pcc [some 1, some 2, some 3] [some 1, some 2, some 3]
      "pairwise" 0 = ⟨3, 3, some 100⟩ := by
    simp only [row_pcc, hd123, hh123, hOrd123]
    norm_num [List.range_succ]
  have hrow2 : row_pcc [some 3, some 2, some 1] [some 1, some 2, some 3]
      "pairwise" 0 = ⟨3, 0, some 0⟩ := by
    simp only [row_pcc, hd321, hh321, hOrd321, hOrd123]
    norm_num [List.range_succ]
  have hconc := pcc_foldl_eq [some 1, some 2, some 3] "pairwise" 0
    [[some 1, some 2, some 3], [some 3, some 2, some 1]] ([], 0, 0)
  have hcind : (pcc [[some 1, some 2, some 3], [some 3, some 2, some 1]]
      [some 1, some 2, some 3] "pairwise" 0).individual_pccs =
      [some 100, some 0] := by
    show (List.foldl (pccStep [some 1, some 2, some 3] "pairwise" 0)
      ([], 0, 0) [[some 1, some 2, some 3], [some 3, some 2, some 1]]).1 = _
    rw [hconc]
    simp [hrow1, hrow2]
  have hcgrp : (pcc [[some 1, some 2, some 3], [some 3, some 2, some 1]]
      [some 1, some 2, some 3] "pairwise" 0).group_pcc = some 50 := by
    show (if (List.foldl (pccStep [some 1, some 2, some 3] "pairwise" 0)
        ([], 0, 0) [[some 1, some 2, some 3], [some 3, some 2, some 1]]).2.1 = 0
      then none
      else some (((((List.foldl (pccStep [some 1, some 2, some 3] "pairwise" 0)
        ([], 0, 0) [[some 1, some 2, some 3], [some 3, some 2, some 1]]).2.2 :
          Nat) : ℚ) /
        (((List.foldl (pccStep [some 1, some 2, some 3] "pairwise" 0)
        ([], 0, 0) [[some 1, some 2, some 3], [some 3, some 2, some 1]]).2.1 :
          Nat) : ℚ)) * 100)) = some 50
    rw [hconc]
    simp [hrow1, hrow2]
    norm_num
  refine ⟨htot, hcor, hind, ?_, hcind, hcgrp⟩
  intro hpos
  have hne : (pcc dat h pt t).total_pairs ≠ 0 := by omega
  have hshow : (pcc dat h pt t).group_pcc =
      (if (pcc dat h pt t).total_pairs = 0 then none
       else some ((((pcc dat h pt t).correct_pairs : ℚ) /
         ((pcc dat h pt t).total_pairs : ℚ)) * 100)) := rfl
  rw [hshow, if_neg hne]
  congr 1
  rw [mul_comm, mul_div_assoc]

/-- Claim C4 witness: the aggregator contract at the spec's concrete
scenario. -/
theorem C4_witness :
    (∀ row ∈ ([[some 1, some 2, some 3], [some 3, some 2, some 1]] :
      List (List Val)), row.length =
        ([some 1, some 2, some 3] : List Val).length) ∧
    groupPccSpec [[some 1, some 2, some 3], [some 3, some 2, some 1]]
      [some 1, some 2, some 3] "pairwise" 0 :=
  ⟨by decide, C4_pcc_group _ _ "pairwise" 0 (by decide)⟩

/-- Claim C9 (modelled from the spec, the exhaustive mode being absent
from src/): the exhaustive-permutation significance mode scores all `N!`
permutations of a row — duplicates retained — with the row scorer, hence
exactly `3! = 6` scored permutations on a 3-element row, the identity
permutation among them, and `permutation_cvalues` yields one individual
c-value per data row. -/
theorem C9_permutation_mode (row h : List Val) (pt : String) (t : ℚ) :
    permSpec row h pt t := by
  refine ⟨?_, ?_, ?_, ?_⟩
  · simp [permutation_scores, List.length_permutations]
  · exact List.mem_map_of_mem _
      (List.mem_permutations.mpr (List.Perm.refl row))
  · intro h3
    simp [permutation_scores, List.length_permutations, h3]
    rfl
  · intro g
    simp [permutation_cvalues]

/-- Claim C9 witness: the exhaustive mode at a concrete 3-element row. -/
theorem C9_witness :
    permSpec [some 1, some 2, some 3] [some 1, some 2, some 3] "pairwise" 0 :=
  C9_permutation_mode [some 1, some 2, some 3] [some 1, some 2, some 3]
    "pairwise" 0

theorem cval_foldl_eq (g : GroupResult) (flag : Bool)
    (crand rrand : Nat → Nat → List Nat) (num_rows : Nat) (m : Nat) :
    (List.range m).foldl (cvalStep g flag crand rrand num_rows)
      (List.replicate num_rows 0, []) =
      ((List.range num_rows).map (fun j =>
        (((List.range m).filter (fun i =>
          oge (randPcc g flag crand rrand i j)
            (g.individual_pccs.getD j none))).length : ℚ)),
       (List.range m).map (fun i =>
        omean ((List.range num_rows).map (fun j =>
          randPcc g flag crand rrand i j)))) := by
  induction m with
  | zero =>
    simp [List.map_const', List.length_range]
  | succ k ih =>
    rw [List.range_succ, List.foldl_append, ih, List.foldl_cons,
      List.foldl_nil, cvalStep]
    refine Prod.ext ?_ ?_
    · show (List.range num_rows).map _ = (List.range num_rows).map _
      apply List.map_congr_left
      intro j hj
      rw [List.mem_range] at hj
      rw [getD_map_range _ _ hj, getD_map_range _ _ hj]
      rw [List.filter_append, List.length_append, List.filter_cons,
        List.filter_nil]
      by_cases hoge : oge (randPcc g flag crand rrand k j)
          (g.individual_pccs.getD j none)
      · rw [if_pos hoge, if_pos hoge]
        simp only [List.length_singleton]
        push_cast
        ring
      · rw [if_neg hoge, if_neg hoge]
        simp only [List.length_nil]
        push_cast
        ring
    · show _ ++ [_] = _
      rw [List.map_append]
      rfl

/-- Claim C2: the Monte-Carlo significance estimator `calc_cvalues`, for
every outcome of the random shuffles: with the flag off each original row
is shuffled and rescored, with it on the row comes from the
column-shuffled matrix and is shuffled again; each repetition's group
randomized PCC is the mean of its per-row randomized PCCs; a row's
c-value is the proportion of repetitions whose randomized PCC `>=` its
observed PCC (inclusive), the group c-value the proportion of repetitions
whose group randomized PCC `>=` the observed group PCC, and all reported
c-values lie in `[0, 1]`. -/
theorem C2_calc_cvalues (g : GroupResult) (nreps : Nat) (flag : Bool)
    (crand rrand : Nat → Nat → List Nat) (hn : 1 ≤ nreps) :
    cvalSpec g nreps flag crand rrand := by
  have hfold := cval_foldl_eq g flag crand rrand g.data.length nreps
  have hrand : (calc_cvalues g nreps flag crand rrand).rand_pccs =
      (List.range nreps).map (fun i =>
        omean ((List.range g.data.length).map (fun j =>
          randPcc g flag crand rrand i j))) := by
    show ((List.range nreps).foldl
      (cvalStep g flag crand rrand g.data.length)
      (List.replicate g.data.length 0, [])).2 = _
    rw [hfold]
  have hind : (calc_cvalues g nreps flag crand rrand).individual_cvals =
      (List.range g.data.length).map (fun j =>
        (((List.range nreps).filter (fun i =>
          oge (randPcc g flag crand rrand i j)
            (g.individual_pccs.getD j none))).length : ℚ) / (nreps : ℚ)) := by
    show ((List.range nreps).foldl
      (cvalStep g flag crand rrand g.data.length)
      (List.replicate g.data.length 0, [])).1.map (fun c => c / (nreps : ℚ)) =
        _
    rw [hfold]
    simp [List.map_map, Function.comp]
  have hgrp : (calc_cvalues g nreps flag crand rrand).group_cval =
      (((List.range nreps).filter (fun i =>
        oge (omean ((List.range g.data.length).map (fun j =>
          randPcc g flag crand rrand i j))) g.group_pcc)).length : ℚ) /
        (nreps : ℚ) := by
    show ((((List.range nreps).foldl
      (cvalStep g flag crand rrand g.data.length)
      (List.replicate g.data.length 0, [])).2.filter (fun x =>
        oge x g.group_pcc)).length : ℚ) / (nreps : ℚ) = _
    rw [hfold]
    rw [List.filter_map, List.length_map]
    rfl
  have hnq : (0 : ℚ) < (nreps : ℚ) := by
    have : 0 < nreps := hn
    exact_mod_cast this
  refine ⟨?_, ?_, hrand, hind, hgrp, ?_, ?_, ?_⟩
  · intro hf i j
    simp [randPcc, randRow, hf]
  · intro hf i j
    simp [randPcc, randRow, hf]
  · intro c hc
    rw [hind] at hc
    obtain ⟨j, _, rfl⟩ := List.mem_map.mp hc
    constructor
    · apply div_nonneg
      · exact Nat.cast_nonneg _
      · exact Nat.cast_nonneg _
    · apply div_le_one_of_le
      · have hle : ((List.range nreps).filter (fun i =>
          oge (randPcc g flag crand rrand i j)
            (g.individual_pccs.getD j none))).length ≤ nreps := by
          have := List.length_filter_le (fun i =>
            oge (randPcc g flag crand rrand i j)
              (g.individual_pccs.getD j none)) (List.range nreps)
          simpa using this
        exact_mod_cast hle
      · exact Nat.cast_nonneg _
  · rw [hgrp]
    apply div_nonneg
    · exact Nat.cast_nonneg _
    · exact Nat.cast_nonneg _
  · rw [hgrp]
    apply div_le_one_of_le
    · have hle : ((List.range nreps).filter (fun i =>
        oge (omean ((List.range g.data.length).map (fun j =>
          randPcc g flag crand rrand i j))) g.group_pcc)).length ≤ nreps := by
        have := List.length_filter_le (fun i =>
          oge (omean ((List.range g.data.length).map (fun j =>
            randPcc g flag crand rrand i j))) g.group_pcc) (List.range nreps)
        simpa using this
      exact_mod_cast hle
    · exact Nat.cast_nonneg _

/-- Claim C2 witness: the Monte-Carlo contract at a concrete bundle,
repetition count, flag and shuffle outcome. -/
theorem C2_witness :
    1 ≤ 1 ∧ cvalSpec (pcc [[some 1, some 2], [some 2, some 1]]
      [some 1, some 2] "adjacent" 0) 1 true
      (fun _ _ => [1, 0]) (fun _ _ => [0, 1]) :=
  ⟨Nat.le_refl 1, C2_calc_cvalues
    (pcc [[some 1, some 2], [some 2, some 1]] [some 1, some 2] "adjacent" 0)
    1 true (fun _ _ => [1, 0]) (fun _ _ => [0, 1]) (Nat.le_refl 1)⟩
